import Mathlib

/-!
# Bias-Aware Hierarchical Clustering: a shallow embedding

This file embeds the core clustering engine of the repository
(`unsupervised_bias_detection/clustering/_bahc.py`,
class `BiasAwareHierarchicalClustering`) as executable Lean definitions and
proves properties of `fit` and `predict` against it.

Modelling conventions:
* Real-valued data (`X`, `y`, scores, means) is embedded as `ℚ`
  (idealized exact arithmetic in place of IEEE floats).
* `np.std` values are used by the code only as heap-priority keys
  (negated, so larger dispersion pops first).  Since `x ↦ -√x` is strictly
  decreasing on nonnegative rationals, the ordering on `-std` values is
  order-isomorphic to the reversed ordering on variances; the embedding
  stores the population variance and compares with the reversed order,
  which induces exactly the same comparisons.
* The Python heap (`heapq`) is embedded as a plain list together with
  extraction of the least element (`popMin`).  `heapq.heappop` returns the
  least element of the heap, so the sequence of popped entries agrees; the
  internal array order of the binary heap is not modelled, so the order in
  which leftover entries are listed at finalization may differ from
  `heapq`'s internal order.  All properties proved below are invariant
  under that order.  The initial entry has key `None` in Python; it is the
  sole element of the initial heap and is popped before any push, so its
  key is never compared with a numeric key.
* `np.argsort(-scores)` followed by re-indexing is embedded as sorting the
  (label, score) pairs by descending score (`List.insertionSort`); the
  properties proved are invariant under the order of score ties.
* Fallible operations return `Except`; `np.mean` of an empty selection
  (which yields NaN in numpy) is embedded as `0` — no property proved here
  evaluates a mean over an empty selection on its success path.
-/

/-- `np.mean` of a list of rationals (sum divided by length; `0` for `[]`,
where numpy would produce NaN). -/
def meanQ (l : List ℚ) : ℚ := l.sum / (l.length : ℚ)

/-- `y[indices]`: the values of `y` at the given positions. -/
def valuesAt (y : List ℚ) (idxs : List ℕ) : List ℚ :=
  idxs.map (fun i => y.getD i 0)

/-- The boolean-mask complement used at lines 96-97/99-100 of `_bahc.py`:
`mask = np.ones(n_samples); mask[idxs] = False` selects every index of the
whole dataset that is not in `idxs`. -/
def complementIndices (n : ℕ) (idxs : List ℕ) : List ℕ :=
  (List.range n).filter (fun i => decide (i ∉ idxs))

/-- The discrimination score of a candidate side (lines 95-101 of
`_bahc.py`): `np.mean(y[mask]) - np.mean(y[indices])`, the mask being the
complement of `indices` in the whole dataset (of `y.length` samples). -/
def sideScore (y : List ℚ) (idxs : List ℕ) : ℚ :=
  meanQ (valuesAt y (complementIndices y.length idxs)) - meanQ (valuesAt y idxs)

/-- Population variance of `y` over `idxs` — the square of `np.std(y[idxs])`
(default `ddof=0`).  Stored in heap keys in place of `-std`; see the header
comment for the order isomorphism. -/
def varianceAt (y : List ℚ) (idxs : List ℕ) : ℚ :=
  let vs := valuesAt y idxs
  meanQ (vs.map (fun v => (v - meanQ vs) ^ 2))

/-- A heap entry `(key, label, score)` as pushed by `fit`
(`heap = [(None, label, score)]` initially, then `(-std, label, score)`).
`key = none` embeds Python's `None`; `key = some v` embeds `-std` where
`v = std²` is the variance. -/
structure Entry where
  key : Option ℚ
  label : ℕ
  score : ℚ
deriving DecidableEq, Repr

/-- Comparison of heap keys, mirroring Python `<` on the first tuple
component: `-√a < -√b ↔ b < a` for variances `a`, `b`.  A `none` key is
never actually compared with a `some` key (the `None` entry is alone in the
initial heap and popped first); the value chosen for that case is
immaterial. -/
def keyLtB : Option ℚ → Option ℚ → Bool
  | none, none => false
  | none, some _ => true
  | some _, none => false
  | some a, some b => decide (b < a)

/-- Lexicographic comparison of heap entries, mirroring Python tuple
comparison on `(key, label, score)`. -/
def entryLtB (a b : Entry) : Bool :=
  keyLtB a.key b.key ||
    (decide (a.key = b.key) &&
      (decide (a.label < b.label) ||
        (decide (a.label = b.label) && decide (a.score < b.score))))

/-- Extraction of the least entry of the heap (`heapq.heappop`): returns
the least element and the remaining entries.  Heap entries carry pairwise
distinct labels during `fit`, so the least element is unique and this
agrees with `heapq`. -/
def popMin : List Entry → Option (Entry × List Entry)
  | [] => none
  | e :: es =>
    match popMin es with
    | none => some (e, [])
    | some (m, rest) => if entryLtB m e then some (m, e :: rest) else some (e, es)

/-- The mutable state of the `fit` loop: the label array, the running
cluster count `self.n_clusters_`, the finalized `(label, score)` pairs
(the `clusters`/`scores` lists), and the heap. -/
structure LoopState where
  labels : List ℕ
  n_clusters : ℕ
  finished : List (ℕ × ℚ)
  heap : List Entry
deriving Repr

/-- `labels[indices1] = self.n_clusters_` (line 109): set every listed
position of the label array to `v`. -/
def setIndices (ls : List ℕ) (idxs : List ℕ) (v : ℕ) : List ℕ :=
  idxs.foldl (fun acc i => acc.set i v) ls

/-- `np.nonzero(labels == label)[0]` (line 86): the sorted indices
currently carrying `label`. -/
def clusterIndicesOf (ls : List ℕ) (n : ℕ) (l : ℕ) : List ℕ :=
  (List.range n).filter (fun i => decide (ls.getD i 0 = l))

/-- Lines 86-90 of `_bahc.py`: gather the popped cluster's indices, run the
split strategy on the corresponding rows of `X`, and partition the indices
into the side labelled `0` and the side labelled `1`. -/
def splitSides (split : List (List ℚ) → List ℕ) (X : List (List ℚ))
    (ls : List ℕ) (l : ℕ) : List ℕ × List ℕ :=
  let ci := clusterIndicesOf ls X.length l
  let cl := split (ci.map (fun i => X.getD i []))
  let z := ci.zip cl
  ((z.filter (fun p => decide (p.2 = 0))).map Prod.fst,
   (z.filter (fun p => decide (p.2 = 1))).map Prod.fst)

/-- One iteration of the `fit` loop (lines 85-116 of `_bahc.py`): pop the
least heap entry, split its cluster, and either materialize the split
(both sides at least `min_cluster_size` and
`max(score0, score1) >= score`, non-strict) or finalize the popped cluster
at its current label and score. -/
def fitStep (mcs : ℤ) (split : List (List ℚ) → List ℕ) (X : List (List ℚ))
    (y : List ℚ) (s : LoopState) : LoopState :=
  match popMin s.heap with
  | none => s
  | some (e, heapRest) =>
    let sides := splitSides split X s.labels e.label
    if mcs ≤ (sides.1.length : ℤ) ∧ mcs ≤ (sides.2.length : ℤ) then
      let score0 := sideScore y sides.1
      let score1 := sideScore y sides.2
      if e.score ≤ max score0 score1 then
        { labels := setIndices s.labels sides.2 s.n_clusters,
          n_clusters := s.n_clusters + 1,
          finished := s.finished,
          heap := heapRest ++
            [⟨some (varianceAt y sides.1), e.label, score0⟩,
             ⟨some (varianceAt y sides.2), s.n_clusters, score1⟩] }
      else
        { s with heap := heapRest,
                 finished := s.finished ++ [(e.label, e.score)] }
    else
      { s with heap := heapRest,
               finished := s.finished ++ [(e.label, e.score)] }

/-- The state at the top of the loop (lines 71-79): all samples at label
`0`, one cluster, nothing finalized, the heap holding `(None, 0, 0)`. -/
def initState (n : ℕ) : LoopState :=
  { labels := List.replicate n 0,
    n_clusters := 1,
    finished := [],
    heap := [⟨none, 0, 0⟩] }

/-- The `for _ in range(n_iter)` loop (line 80): each iteration first
breaks if the heap is empty, then performs `fitStep`. -/
def fitLoop (mcs : ℤ) (split : List (List ℚ) → List ℕ) (X : List (List ℚ))
    (y : List ℚ) : ℕ → LoopState → LoopState
  | 0, s => s
  | Nat.succ n, s =>
    if s.heap = [] then s
    else fitLoop mcs split X y n (fitStep mcs split X y s)

/-- Descending-score order on `(label, score)` pairs, the order in which
`np.argsort(-scores)` arranges the finalized clusters. -/
def scoreGe (a b : ℕ × ℚ) : Prop := b.2 ≤ a.2

instance : DecidableRel scoreGe := fun a b => inferInstanceAs (Decidable (b.2 ≤ a.2))

instance : IsTotal (ℕ × ℚ) scoreGe := ⟨fun a b => le_total b.2 a.2⟩

instance : IsTrans (ℕ × ℚ) scoreGe := ⟨fun _ _ _ hab hbc => le_trans hbc hab⟩

/-- Lines 117-121 of `_bahc.py`: append the leftover heap entries to the
finalized clusters and sort everything by decreasing score
(`np.argsort(-scores)` applied simultaneously to `clusters` and `scores`). -/
def finalPairs (s : LoopState) : List (ℕ × ℚ) :=
  List.insertionSort scoreGe (s.finished ++ s.heap.map (fun e => (e.label, e.score)))

/-- `mapping[clusters[r]] = r` for successive ranks (lines 123-124), with
`mapping` initialized to zeros.  Later writes win, as for numpy fancy
assignment. -/
def buildMappingAux : List ℕ → ℕ → List ℕ → List ℕ
  | [], _, m => m
  | c :: cs, r, m => buildMappingAux cs (r + 1) (m.set c r)

/-- `mapping = np.zeros(n_clusters); mapping[clusters] = np.arange(n_clusters)`
(lines 123-124): the label-to-rank remapping table. -/
def buildMapping (k : ℕ) (cs : List ℕ) : List ℕ :=
  buildMappingAux cs 0 (List.replicate k 0)

/-- `np.unique(labels)`: the sorted distinct label values present. -/
def uniqueSorted (l : List ℕ) : List ℕ :=
  (List.range (l.foldr max 0 + 1)).filter (fun v => decide (v ∈ l))

/-- One centroid column of `calc_centroids` (lines 37-46): the per-feature
mean over the rows carrying label `l`. -/
def featureMeans (X : List (List ℚ)) (ls : List ℕ) (l : ℕ) : List ℚ :=
  let rows := ((List.range X.length).filter (fun i => decide (ls.getD i 0 = l))).map
    (fun i => X.getD i [])
  (List.range (X.headD []).length).map (fun j => meanQ (rows.map (fun row => row.getD j 0)))

/-- `calc_centroids` (lines 23-48): one column per distinct label present,
in sorted label order.  The numpy code stores a `D × K` matrix; the
embedding stores the list of its `K` columns. -/
def calcCentroids (X : List (List ℚ)) (ls : List ℕ) : List (List ℚ) :=
  (uniqueSorted ls).map (fun l => featureMeans X ls l)

/-- The persisted outputs of a successful `fit`:
`labels_`, `scores_`, `n_clusters_`, `centroids_`. -/
structure FitResult where
  labels_ : List ℕ
  scores_ : List ℚ
  n_clusters_ : ℕ
  centroids_ : List (List ℚ)
deriving DecidableEq, Repr

/-- Lines 117-129 of `_bahc.py`: sort the finalized clusters by decreasing
score, remap the label array by score rank, and compute the centroids. -/
def finalize (X : List (List ℚ)) (s : LoopState) : FitResult :=
  let pairs := finalPairs s
  let mapping := buildMapping s.n_clusters (pairs.map Prod.fst)
  let labs := s.labels.map (fun l => mapping.getD l 0)
  { labels_ := labs,
    scores_ := pairs.map Prod.snd,
    n_clusters_ := s.n_clusters,
    centroids_ := calcCentroids X labs }

/-- The constructor arguments of `BiasAwareHierarchicalClustering.__init__`
(lines 19-21): `n_iter` and `min_cluster_size`.  `min_cluster_size` is an
integer, allowed to be nonpositive — `__init__` and `fit` never validate
it. -/
structure Config where
  n_iter : ℕ
  min_cluster_size : ℤ
deriving DecidableEq, Repr

/-- The error taxonomy named by the specification for `fit`.  The code
only ever raises shape/type validation errors (`_validate_data`, embedded
as `invalidInput`); `configurationError` is declared so that its absence
from the code's behavior is expressible. -/
inductive FitError
  | invalidInput
  | configurationError
deriving DecidableEq, Repr

/-- The state of the loop variables when the `for` loop of `fit` exits
(lines 80-116 run on the initial state). -/
def loopResult (cfg : Config) (split : List (List ℚ) → List ℕ)
    (X : List (List ℚ)) (y : List ℚ) : LoopState :=
  fitLoop cfg.min_cluster_size split X y cfg.n_iter (initState X.length)

/-- `fit` (lines 50-131 of `_bahc.py`): validate the shapes (`_validate_data`
rejects an `X`/`y` length mismatch and an empty `X`), run the loop from the
initial state, and finalize.  No configuration validation is performed. -/
def fitModel (cfg : Config) (split : List (List ℚ) → List ℕ)
    (X : List (List ℚ)) (y : List ℚ) : Except FitError FitResult :=
  if X.length = 0 ∨ y.length ≠ X.length then .error .invalidInput
  else .ok (finalize X (loopResult cfg split X y))

/-- A clustering engine object: the stored configuration plus the fitted
state (`none` before any successful `fit`; the attributes `labels_`,
`scores_`, `n_clusters_`, `centroids_` do not exist on the Python object
until `fit` sets them). -/
structure Engine where
  n_iter : ℕ
  min_cluster_size : ℤ
  fitted : Option FitResult
deriving DecidableEq, Repr

/-- `__init__(n_iter, min_cluster_size)`: store the configuration; no
validation, no fitted state. -/
def mkEngine (n_iter : ℕ) (min_cluster_size : ℤ) : Engine :=
  ⟨n_iter, min_cluster_size, none⟩

/-- The `fit` method: run `fitModel` with the stored configuration and, on
success, overwrite the fitted state.  No prior fitted state is read. -/
def fitMethod (split : List (List ℚ) → List ℕ) (e : Engine)
    (X : List (List ℚ)) (y : List ℚ) : Except FitError Engine :=
  match fitModel ⟨e.n_iter, e.min_cluster_size⟩ split X y with
  | .ok r => .ok { e with fitted := some r }
  | .error err => .error err

/-- How a `predict` call can fail.  `_validate_data` (lines 149-151, with
sklearn defaults `ensure_2d=True`, `ensure_min_samples=1`) raises
`ValueError` on an input with no samples, before anything else runs.  On
an unfitted engine the code then reaches `self.centroids_` (line 154) with
the attribute unset, which raises `AttributeError`; `sklearn`'s
`NotFittedError` is never raised (`predict` performs no
`check_is_fitted`, and `_validate_data` with `reset=False` returns
silently when `n_features_in_` is absent). -/
inductive PredictError
  | notFittedError
  | attributeError
  | valueError
deriving DecidableEq, Repr

/-- Squared Euclidean distance between a row and a centroid column
(lines 160-166). -/
def sqDist (x c : List ℚ) : ℚ :=
  ((x.zip c).map (fun p => (p.1 - p.2) ^ 2)).sum

/-- `np.argmin`: the index of the first minimal element (`0` for `[]`). -/
def argminIdx : List ℚ → ℕ
  | [] => 0
  | a :: rest =>
    let j := argminIdx rest
    if rest.getD j a < a then j + 1 else 0

/-- The computational core of `predict` (lines 156-172): for each row, the
label of the centroid column at minimal squared Euclidean distance, ties
going to the lowest index. -/
def predictLabels (centroids : List (List ℚ)) (Xp : List (List ℚ)) : List ℕ :=
  Xp.map (fun x => argminIdx (centroids.map (fun c => sqDist x c)))

/-- The `predict` method (lines 133-172): `_validate_data` first rejects
an input with zero rows with `ValueError` (`ensure_min_samples=1`; a
0-row nested list is also 1-dimensional for numpy, rejected by
`ensure_2d=True` — either way `ValueError`, before `centroids_` is
touched).  The further `check_array` conditions (non-numeric or ragged
input) cannot fire for a rectangular `List (List ℚ)` with the fitted
feature dimension, the scope of the claims, and are not modelled.  Then
reading `self.centroids_` on an unfitted engine raises `AttributeError`;
otherwise the nearest-centroid labels are returned and the engine is
untouched. -/
def predictMethod (e : Engine) (Xp : List (List ℚ)) : Except PredictError (List ℕ) :=
  if Xp.length = 0 then .error .valueError
  else
    match e.fitted with
    | none => .error .attributeError
    | some r => .ok (predictLabels r.centroids_ Xp)

/-- Whether an `Except` value is a success. -/
def isOkB : Except FitError FitResult → Bool
  | .ok _ => true
  | .error _ => false

instance {ε α : Type} [DecidableEq ε] [DecidableEq α] : DecidableEq (Except ε α)
  | .ok x, .ok y =>
    if h : x = y then .isTrue (by rw [h]) else .isFalse (fun hc => h (by injection hc))
  | .ok _, .error _ => .isFalse (fun hc => by injection hc)
  | .error _, .ok _ => .isFalse (fun hc => by injection hc)
  | .error x, .error y =>
    if h : x = y then .isTrue (by rw [h]) else .isFalse (fun hc => h (by injection hc))

/-- Modelled from the spec (glossary "Discrimination score" and §4.2
step 3): "mean outcome metric outside a candidate group minus mean inside
it", the complement taken over the entire dataset.  Stated over a `Finset`
of indices for comparison with the code's mask-based computation. -/
def specDiscriminationScore (y : List ℚ) (S : Finset ℕ) : ℚ :=
  (∑ i in Finset.range y.length \ S, y.getD i 0) / (((Finset.range y.length \ S).card : ℚ))
    - (∑ i in S, y.getD i 0) / ((S.card : ℚ))

/-- A concrete deterministic split strategy used to instantiate theorems:
alternates the two sides. -/
def splitAlt (rows : List (List ℚ)) : List ℕ :=
  (List.range rows.length).map (fun i => i % 2)

/-- The labels currently owned by the loop state: finalized labels followed
by the labels open on the heap. -/
def labelsOf (s : LoopState) : List ℕ :=
  s.finished.map Prod.fst ++ s.heap.map Entry.label

/-- The loop invariant: the label array has length `n`; the finalized and
open labels together enumerate `0, …, n_clusters - 1` exactly once; every
sample's label is in range. -/
def invCore (n : ℕ) (s : LoopState) : Prop :=
  s.labels.length = n ∧
  (labelsOf s).Perm (List.range s.n_clusters) ∧
  ∀ i, i < n → s.labels.getD i 0 < s.n_clusters

/-- The full partition invariant: `invCore` plus nonemptiness of every
cluster. -/
def partitionInv (n : ℕ) (s : LoopState) : Prop :=
  invCore n s ∧ ∀ l, l < s.n_clusters → ∃ i, i < n ∧ s.labels.getD i 0 = l

/-! ## Helper lemmas -/

theorem popMin_eq_none_iff (h : List Entry) : popMin h = none ↔ h = [] := by
  cases h with
  | nil => simp [popMin]
  | cons e es =>
    constructor
    · intro hc
      unfold popMin at hc
      cases hp : popMin es with
      | none => rw [hp] at hc; simp at hc
      | some p =>
        rw [hp] at hc
        obtain ⟨m, rest⟩ := p
        by_cases hlt : entryLtB m e <;> simp [hlt] at hc
    · intro hc; cases hc

theorem popMin_perm {h : List Entry} {e : Entry} {h' : List Entry}
    (hp : popMin h = some (e, h')) : h.Perm (e :: h') := by
  induction h generalizing e h' with
  | nil => simp [popMin] at hp
  | cons a as ih =>
    cases hq : popMin as with
    | none =>
      have has : as = [] := (popMin_eq_none_iff as).mp hq
      subst has
      simp only [popMin, Option.some.injEq, Prod.mk.injEq] at hp
      obtain ⟨he, hh⟩ := hp
      subst he; subst hh
      exact List.Perm.refl _
    | some p =>
      obtain ⟨m, rest⟩ := p
      simp only [popMin, hq] at hp
      split at hp
      all_goals simp only [Option.some.injEq, Prod.mk.injEq] at hp
      all_goals obtain ⟨he, hh⟩ := hp
      all_goals subst he
      all_goals subst hh
      · exact (((ih hq).cons a)).trans (List.Perm.swap m a rest)
      · exact List.Perm.refl _

theorem getD_set_self {α : Type} (l : List α) (i : ℕ) (v d : α) (h : i < l.length) :
    (l.set i v).getD i d = v := by
  induction l generalizing i with
  | nil => simp at h
  | cons a t ih =>
    cases i with
    | zero => simp
    | succ n =>
      simp only [List.set, List.getD_cons_succ]
      exact ih n (by simpa using h)

theorem getD_set_ne {α : Type} (l : List α) {i j : ℕ} (v d : α) (h : i ≠ j) :
    (l.set i v).getD j d = l.getD j d := by
  induction l generalizing i j with
  | nil => simp [List.set]
  | cons a t ih =>
    cases i with
    | zero =>
      cases j with
      | zero => exact absurd rfl h
      | succ m => simp
    | succ n =>
      cases j with
      | zero => simp
      | succ m =>
        simp only [List.set, List.getD_cons_succ]
        exact ih (fun hc => h (by rw [hc]))

theorem setIndices_cons (ls : List ℕ) (j : ℕ) (rest : List ℕ) (v : ℕ) :
    setIndices ls (j :: rest) v = setIndices (ls.set j v) rest v := by
  simp [setIndices]

theorem setIndices_length (ls idxs : List ℕ) (v : ℕ) :
    (setIndices ls idxs v).length = ls.length := by
  induction idxs generalizing ls with
  | nil => rfl
  | cons j rest ih => rw [setIndices_cons, ih, List.length_set]

theorem getD_setIndices_not_mem {ls idxs : List ℕ} {v i : ℕ} (h : i ∉ idxs) :
    (setIndices ls idxs v).getD i 0 = ls.getD i 0 := by
  induction idxs generalizing ls with
  | nil => rfl
  | cons j rest ih =>
    rw [setIndices_cons, ih (fun hc => h (List.mem_cons_of_mem j hc))]
    exact getD_set_ne ls v 0 (fun hc => h (hc ▸ List.mem_cons_self j rest))

theorem getD_setIndices_mem {ls idxs : List ℕ} {v i : ℕ} (h : i ∈ idxs)
    (hlt : i < ls.length) : (setIndices ls idxs v).getD i 0 = v := by
  induction idxs generalizing ls with
  | nil => cases h
  | cons j rest ih =>
    rw [setIndices_cons]
    by_cases hm : i ∈ rest
    · exact ih hm (by rw [List.length_set]; exact hlt)
    · have hij : i = j := by
        rcases List.mem_cons.mp h with h1 | h2
        · exact h1
        · exact absurd h2 hm
      subst hij
      rw [getD_setIndices_not_mem hm]
      exact getD_set_self ls i v 0 hlt

theorem clusterIndicesOf_nodup (ls : List ℕ) (n l : ℕ) :
    (clusterIndicesOf ls n l).Nodup :=
  (List.nodup_range n).filter _

theorem mem_clusterIndicesOf {ls : List ℕ} {n l i : ℕ} :
    i ∈ clusterIndicesOf ls n l ↔ i < n ∧ ls.getD i 0 = l := by
  simp [clusterIndicesOf, List.mem_filter, List.mem_range]

theorem zip_fst_eq_of_nodup {α β : Type} {l : List α} {m : List β} (hn : l.Nodup) :
    ∀ {a : α} {x y : β}, (a, x) ∈ l.zip m → (a, y) ∈ l.zip m → x = y := by
  induction l generalizing m with
  | nil => intro a x y h1 _; simp at h1
  | cons c cs ih =>
    intro a x y h1 h2
    cases m with
    | nil => simp at h1
    | cons d ds =>
      simp only [List.zip_cons_cons, List.mem_cons, Prod.mk.injEq] at h1 h2
      obtain ⟨hcn, hnd⟩ := List.nodup_cons.mp hn
      rcases h1 with ⟨ha1, hx⟩ | h1
      · rcases h2 with ⟨_, hy⟩ | h2
        · rw [hx, hy]
        · subst ha1
          exact absurd (List.of_mem_zip h2).1 hcn
      · rcases h2 with ⟨ha2, hy⟩ | h2
        · subst ha2
          exact absurd (List.of_mem_zip h1).1 hcn
        · exact ih hnd h1 h2

theorem zip_map_fst_nodup {α β : Type} {l : List α} (m : List β) (hn : l.Nodup) :
    ((l.zip m).map Prod.fst).Nodup := by
  induction l generalizing m with
  | nil => simp
  | cons c cs ih =>
    cases m with
    | nil => simp
    | cons d ds =>
      obtain ⟨hcn, hnd⟩ := List.nodup_cons.mp hn
      simp only [List.zip_cons_cons, List.map_cons]
      refine List.nodup_cons.mpr ⟨?_, ih ds hnd⟩
      intro hc
      obtain ⟨⟨a, b⟩, hmem, hfst⟩ := List.mem_map.mp hc
      exact hcn (hfst ▸ (List.of_mem_zip hmem).1)

theorem mem_filter_map_fst {z : List (ℕ × ℕ)} {p : ℕ × ℕ → Bool} {i : ℕ} :
    i ∈ (z.filter p).map Prod.fst ↔ ∃ b, (i, b) ∈ z ∧ p (i, b) = true := by
  constructor
  · intro h
    obtain ⟨⟨a, b⟩, hmem, hfst⟩ := List.mem_map.mp h
    obtain ⟨hz, hp⟩ := List.mem_filter.mp hmem
    obtain rfl : a = i := hfst
    exact ⟨b, hz, hp⟩
  · intro ⟨b, hz, hp⟩
    exact List.mem_map.mpr ⟨(i, b), List.mem_filter.mpr ⟨hz, hp⟩, rfl⟩

theorem mem_splitSides_fst {split : List (List ℚ) → List ℕ} {X : List (List ℚ)}
    {ls : List ℕ} {l i : ℕ} (h : i ∈ (splitSides split X ls l).1) :
    i < X.length ∧ ls.getD i 0 = l := by
  unfold splitSides at h
  obtain ⟨b, hz, _⟩ := mem_filter_map_fst.mp h
  exact mem_clusterIndicesOf.mp (List.of_mem_zip hz).1

theorem mem_splitSides_snd {split : List (List ℚ) → List ℕ} {X : List (List ℚ)}
    {ls : List ℕ} {l i : ℕ} (h : i ∈ (splitSides split X ls l).2) :
    i < X.length ∧ ls.getD i 0 = l := by
  unfold splitSides at h
  obtain ⟨b, hz, _⟩ := mem_filter_map_fst.mp h
  exact mem_clusterIndicesOf.mp (List.of_mem_zip hz).1

theorem splitSides_disjoint {split : List (List ℚ) → List ℕ} {X : List (List ℚ)}
    {ls : List ℕ} {l i : ℕ} (h0 : i ∈ (splitSides split X ls l).1)
    (h1 : i ∈ (splitSides split X ls l).2) : False := by
  unfold splitSides at h0 h1
  obtain ⟨b0, hz0, hp0⟩ := mem_filter_map_fst.mp h0
  obtain ⟨b1, hz1, hp1⟩ := mem_filter_map_fst.mp h1
  have hb0 : b0 = 0 := of_decide_eq_true hp0
  have hb1 : b1 = 1 := of_decide_eq_true hp1
  have : b0 = b1 := zip_fst_eq_of_nodup (clusterIndicesOf_nodup ls X.length l) hz0 hz1
  omega

theorem splitSides_fst_nodup (split : List (List ℚ) → List ℕ) (X : List (List ℚ))
    (ls : List ℕ) (l : ℕ) : (splitSides split X ls l).1.Nodup := by
  unfold splitSides
  exact (zip_map_fst_nodup _ (clusterIndicesOf_nodup ls X.length l)).sublist
    (List.Sublist.map Prod.fst (List.filter_sublist _))

theorem splitSides_snd_nodup (split : List (List ℚ) → List ℕ) (X : List (List ℚ))
    (ls : List ℕ) (l : ℕ) : (splitSides split X ls l).2.Nodup := by
  unfold splitSides
  exact (zip_map_fst_nodup _ (clusterIndicesOf_nodup ls X.length l)).sublist
    (List.Sublist.map Prod.fst (List.filter_sublist _))

/-! ## The loop invariant -/

theorem invCore_init (n : ℕ) : invCore n (initState n) := by
  refine ⟨by simp [initState], ?_, ?_⟩
  · show (labelsOf (initState n)).Perm (List.range 1)
    rw [show labelsOf (initState n) = [0] from rfl, show List.range 1 = [0] from rfl]
  · intro i hi
    simp only [initState]
    rw [List.getD_eq_getElem _ _ (by simpa using hi), List.getElem_replicate]
    exact Nat.one_pos

theorem partitionInv_init {n : ℕ} (hn : 1 ≤ n) : partitionInv n (initState n) := by
  refine ⟨invCore_init n, ?_⟩
  intro l hl
  have hl1 : l < 1 := by simpa [initState] using hl
  obtain rfl : l = 0 := Nat.lt_one_iff.mp hl1
  refine ⟨0, hn, ?_⟩
  simp only [initState]
  rw [List.getD_eq_getElem _ _ (by simpa using hn), List.getElem_replicate]

theorem invCore_fitStep {n : ℕ} {mcs : ℤ} {split : List (List ℚ) → List ℕ}
    {X : List (List ℚ)} {y : List ℚ} {s : LoopState}
    (h : invCore n s) : invCore n (fitStep mcs split X y s) := by
  obtain ⟨hlen, hperm, hbound⟩ := h
  cases hpop : popMin s.heap with
  | none =>
    have hid : fitStep mcs split X y s = s := by simp [fitStep, hpop]
    rw [hid]
    exact ⟨hlen, hperm, hbound⟩
  | some p =>
    obtain ⟨e, heapRest⟩ := p
    have hp : s.heap.Perm (e :: heapRest) := popMin_perm hpop
    have hlabelsPerm : (labelsOf s).Perm
        (s.finished.map Prod.fst ++ (e.label :: heapRest.map Entry.label)) :=
      List.Perm.append_left _ (hp.map Entry.label)
    have hkey : (s.finished.map Prod.fst ++ (e.label :: heapRest.map Entry.label)).Perm
        (List.range s.n_clusters) := hlabelsPerm.symm.trans hperm
    have hreject : invCore n
        { s with heap := heapRest, finished := s.finished ++ [(e.label, e.score)] } := by
      refine ⟨hlen, ?_, hbound⟩
      show ((s.finished ++ [(e.label, e.score)]).map Prod.fst
        ++ heapRest.map Entry.label).Perm (List.range s.n_clusters)
      have e1 : (s.finished ++ [(e.label, e.score)]).map Prod.fst
          ++ heapRest.map Entry.label
          = s.finished.map Prod.fst ++ (e.label :: heapRest.map Entry.label) := by
        rw [List.map_append, List.append_assoc]
        rfl
      rw [e1]
      exact hkey
    simp only [fitStep, hpop]
    split
    · split
      · -- accept: relabel side 1, push two candidates, increment the count
        refine ⟨?_, ?_, ?_⟩
        · show (setIndices s.labels (splitSides split X s.labels e.label).2
            s.n_clusters).length = n
          rw [setIndices_length]
          exact hlen
        · show (s.finished.map Prod.fst ++
            (heapRest ++
              [Entry.mk (some (varianceAt y (splitSides split X s.labels e.label).1)) e.label
                  (sideScore y (splitSides split X s.labels e.label).1),
               Entry.mk (some (varianceAt y (splitSides split X s.labels e.label).2)) s.n_clusters
                  (sideScore y (splitSides split X s.labels e.label).2)]).map
              Entry.label).Perm
            (List.range (s.n_clusters + 1))
          rw [List.map_append]
          have hmid : (heapRest.map Entry.label ++ (e.label :: [s.n_clusters])).Perm
              (e.label :: (heapRest.map Entry.label ++ [s.n_clusters])) :=
            List.perm_middle
          have p1 : (s.finished.map Prod.fst ++
              (heapRest.map Entry.label ++ (e.label :: [s.n_clusters]))).Perm
              (s.finished.map Prod.fst ++
                (e.label :: (heapRest.map Entry.label ++ [s.n_clusters]))) :=
            List.Perm.append_left _ hmid
          have e2 : s.finished.map Prod.fst ++
              (e.label :: (heapRest.map Entry.label ++ [s.n_clusters]))
              = (s.finished.map Prod.fst ++ (e.label :: heapRest.map Entry.label))
                ++ [s.n_clusters] := by
            rw [List.append_assoc]
            rfl
          have p2 : ((s.finished.map Prod.fst ++ (e.label :: heapRest.map Entry.label))
              ++ [s.n_clusters]).Perm (List.range s.n_clusters ++ [s.n_clusters]) :=
            List.Perm.append_right _ hkey
          have p3 : (s.finished.map Prod.fst ++
              (e.label :: (heapRest.map Entry.label ++ [s.n_clusters]))).Perm
              (List.range s.n_clusters ++ [s.n_clusters]) := by
            rw [e2]
            exact p2
          rw [List.range_succ]
          exact p1.trans p3
        · intro i hi
          show (setIndices s.labels (splitSides split X s.labels e.label).2
            s.n_clusters).getD i 0 < s.n_clusters + 1
          by_cases hm : i ∈ (splitSides split X s.labels e.label).2
          · rw [getD_setIndices_mem hm (by rw [hlen]; exact hi)]
            exact Nat.lt_succ_self _
          · rw [getD_setIndices_not_mem hm]
            exact Nat.lt_succ_of_lt (hbound i hi)
      · exact hreject
    · exact hreject

theorem partitionInv_fitStep {n : ℕ} {mcs : ℤ} {split : List (List ℚ) → List ℕ}
    {X : List (List ℚ)} {y : List ℚ} {s : LoopState} (hmcs : 1 ≤ mcs)
    (hX : X.length = n) (h : partitionInv n s) :
    partitionInv n (fitStep mcs split X y s) := by
  obtain ⟨hcore, hne⟩ := h
  refine ⟨invCore_fitStep hcore, ?_⟩
  obtain ⟨hlen, hperm, hbound⟩ := hcore
  cases hpop : popMin s.heap with
  | none =>
    have hid : fitStep mcs split X y s = s := by simp [fitStep, hpop]
    rw [hid]
    exact hne
  | some p =>
    obtain ⟨e, heapRest⟩ := p
    simp only [fitStep, hpop]
    split
    · split
      · -- accept
        rename_i hsize hscore
        obtain ⟨hs0, hs1⟩ := hsize
        have h0pos : 0 < (splitSides split X s.labels e.label).1.length := by
          have h01 : (1 : ℤ) ≤ ((splitSides split X s.labels e.label).1.length : ℤ) :=
            le_trans hmcs hs0
          exact_mod_cast h01
        have h1pos : 0 < (splitSides split X s.labels e.label).2.length := by
          have h11 : (1 : ℤ) ≤ ((splitSides split X s.labels e.label).2.length : ℤ) :=
            le_trans hmcs hs1
          exact_mod_cast h11
        obtain ⟨j0, hj0⟩ := List.exists_mem_of_length_pos h0pos
        obtain ⟨j1, hj1⟩ := List.exists_mem_of_length_pos h1pos
        intro l hl
        have hl1 : l < s.n_clusters + 1 := hl
        by_cases hK : l = s.n_clusters
        · subst hK
          refine ⟨j1, ?_, ?_⟩
          · exact hX ▸ (mem_splitSides_snd hj1).1
          · exact getD_setIndices_mem hj1
              (by rw [hlen]; exact hX ▸ (mem_splitSides_snd hj1).1)
        · have hlK : l < s.n_clusters := by omega
          obtain ⟨i, hin, hil⟩ := hne l hlK
          by_cases hm : i ∈ (splitSides split X s.labels e.label).2
          · have heq : s.labels.getD i 0 = e.label := (mem_splitSides_snd hm).2
            have hle : l = e.label := by rw [← hil, heq]
            refine ⟨j0, ?_, ?_⟩
            · exact hX ▸ (mem_splitSides_fst hj0).1
            · have hj0ne : j0 ∉ (splitSides split X s.labels e.label).2 :=
                fun hc => splitSides_disjoint hj0 hc
              show (setIndices s.labels (splitSides split X s.labels e.label).2
                s.n_clusters).getD j0 0 = l
              rw [getD_setIndices_not_mem hj0ne, (mem_splitSides_fst hj0).2, ← hle]
          · refine ⟨i, hin, ?_⟩
            show (setIndices s.labels (splitSides split X s.labels e.label).2
              s.n_clusters).getD i 0 = l
            rw [getD_setIndices_not_mem hm, hil]
      · intro l hl
        exact hne l hl
    · intro l hl
      exact hne l hl

theorem invCore_fitLoop {n : ℕ} {mcs : ℤ} {split : List (List ℚ) → List ℕ}
    {X : List (List ℚ)} {y : List ℚ} :
    ∀ (k : ℕ) (s : LoopState), invCore n s → invCore n (fitLoop mcs split X y k s) := by
  intro k
  induction k with
  | zero => intro s h; exact h
  | succ k ih =>
    intro s h
    simp only [fitLoop]
    split
    · exact h
    · exact ih _ (invCore_fitStep h)

theorem partitionInv_fitLoop {n : ℕ} {mcs : ℤ} {split : List (List ℚ) → List ℕ}
    {X : List (List ℚ)} {y : List ℚ} (hmcs : 1 ≤ mcs) (hX : X.length = n) :
    ∀ (k : ℕ) (s : LoopState), partitionInv n s →
      partitionInv n (fitLoop mcs split X y k s) := by
  intro k
  induction k with
  | zero => intro s h; exact h
  | succ k ih =>
    intro s h
    simp only [fitLoop]
    split
    · exact h
    · exact ih _ (partitionInv_fitStep hmcs hX h)

theorem fitStep_n_clusters_le (mcs : ℤ) (split : List (List ℚ) → List ℕ)
    (X : List (List ℚ)) (y : List ℚ) (s : LoopState) :
    (fitStep mcs split X y s).n_clusters ≤ s.n_clusters + 1 := by
  cases hpop : popMin s.heap with
  | none =>
    have hid : fitStep mcs split X y s = s := by simp [fitStep, hpop]
    rw [hid]
    exact Nat.le_succ _
  | some p =>
    obtain ⟨e, heapRest⟩ := p
    simp only [fitStep, hpop]
    split
    · split
      · exact Nat.le_refl _
      · exact Nat.le_succ _
    · exact Nat.le_succ _

theorem fitLoop_n_clusters_le (mcs : ℤ) (split : List (List ℚ) → List ℕ)
    (X : List (List ℚ)) (y : List ℚ) :
    ∀ (k : ℕ) (s : LoopState),
      (fitLoop mcs split X y k s).n_clusters ≤ s.n_clusters + k := by
  intro k
  induction k with
  | zero => intro s; exact Nat.le_refl _
  | succ k ih =>
    intro s
    simp only [fitLoop]
    split
    · exact Nat.le_add_right _ _
    · have h1 := ih (fitStep mcs split X y s)
      have h2 := fitStep_n_clusters_le mcs split X y s
      omega

/-! ## Finalization lemmas -/

theorem finalPairs_perm (s : LoopState) :
    (finalPairs s).Perm (s.finished ++ s.heap.map (fun e => (e.label, e.score))) :=
  List.perm_insertionSort scoreGe _

theorem finalPairs_fst_perm (s : LoopState) :
    ((finalPairs s).map Prod.fst).Perm (labelsOf s) := by
  have h2 := (finalPairs_perm s).map Prod.fst
  rw [List.map_append, List.map_map] at h2
  exact h2

theorem finalPairs_sorted (s : LoopState) : List.Pairwise scoreGe (finalPairs s) :=
  List.sorted_insertionSort scoreGe _

theorem getD_map_of_lt {α β : Type} (f : α → β) (l : List α) {i : ℕ}
    (hi : i < l.length) (d : β) (d' : α) : (l.map f).getD i d = f (l.getD i d') := by
  rw [List.getD_eq_getElem _ _ (by simpa using hi), List.getD_eq_getElem _ _ hi,
    List.getElem_map]

theorem set_of_length_le {α : Type} {l : List α} {i : ℕ} (v : α) (h : l.length ≤ i) :
    l.set i v = l := by
  induction l generalizing i with
  | nil => rfl
  | cons a t ih =>
    cases i with
    | zero => simp at h
    | succ j =>
      simp only [List.set]
      rw [ih (by simpa using h)]

theorem buildMappingAux_getD_not_mem {cs : List ℕ} {p : ℕ} (h : p ∉ cs) :
    ∀ (r : ℕ) (m : List ℕ), (buildMappingAux cs r m).getD p 0 = m.getD p 0 := by
  induction cs with
  | nil => intro r m; rfl
  | cons c rest ih =>
    intro r m
    rw [buildMappingAux, ih (fun hc => h (List.mem_cons_of_mem c hc))]
    exact getD_set_ne m r 0 (fun hc => h (hc ▸ List.mem_cons_self c rest))

theorem buildMappingAux_getD {cs : List ℕ} (hnd : cs.Nodup) :
    ∀ (j : ℕ), j < cs.length → ∀ (r : ℕ) (m : List ℕ), (∀ c ∈ cs, c < m.length) →
      (buildMappingAux cs r m).getD (cs.getD j 0) 0 = r + j := by
  induction cs with
  | nil => intro j hj; simp at hj
  | cons c rest ih =>
    intro j hj r m hbound
    obtain ⟨hcr, hndr⟩ := List.nodup_cons.mp hnd
    cases j with
    | zero =>
      rw [buildMappingAux, List.getD_cons_zero, buildMappingAux_getD_not_mem hcr,
        getD_set_self m c r 0 (hbound c (List.mem_cons_self c rest))]
      omega
    | succ j' =>
      rw [buildMappingAux, List.getD_cons_succ]
      have hstep := ih hndr j' (by simpa using hj) (r + 1) (m.set c r)
        (fun c' hc' => by rw [List.length_set]; exact hbound c' (List.mem_cons_of_mem c hc'))
      rw [hstep]
      omega

theorem buildMapping_rank {k : ℕ} {cs : List ℕ} (hnd : cs.Nodup)
    (hb : ∀ c ∈ cs, c < k) {j : ℕ} (hj : j < cs.length) :
    (buildMapping k cs).getD (cs.getD j 0) 0 = j := by
  unfold buildMapping
  have h := buildMappingAux_getD hnd j hj 0 (List.replicate k 0)
    (by intro c hc; rw [List.length_replicate]; exact hb c hc)
  simpa using h

theorem buildMappingAux_getD_lt {B : ℕ} :
    ∀ (cs : List ℕ) (r : ℕ) (m : List ℕ), (∀ q, m.getD q 0 < B) →
      r + cs.length ≤ B → ∀ p, (buildMappingAux cs r m).getD p 0 < B := by
  intro cs
  induction cs with
  | nil => intro r m hm _ p; exact hm p
  | cons c rest ih =>
    intro r m hm hr p
    rw [buildMappingAux]
    refine ih (r + 1) (m.set c r) ?_ (by simp only [List.length_cons] at hr; omega) p
    intro q
    by_cases hcq : c = q
    · subst hcq
      by_cases hlt : c < m.length
      · rw [getD_set_self m c r 0 hlt]
        simp only [List.length_cons] at hr
        omega
      · rw [set_of_length_le r (Nat.le_of_not_lt hlt)]
        exact hm c
    · rw [getD_set_ne m r 0 hcq]
      exact hm q

theorem buildMapping_lt {k : ℕ} (hk : 1 ≤ k) {cs : List ℕ} (hlen : cs.length = k) :
    ∀ p, (buildMapping k cs).getD p 0 < k := by
  refine buildMappingAux_getD_lt cs 0 (List.replicate k 0) ?_ (by rw [hlen]; omega)
  intro q
  by_cases hq : q < (List.replicate k (0 : ℕ)).length
  · rw [List.getD_eq_getElem _ _ hq, List.getElem_replicate]
    exact hk
  · rw [List.getD_eq_default _ _ (Nat.le_of_not_lt hq)]
    exact hk

theorem fitStep_n_clusters_ge (mcs : ℤ) (split : List (List ℚ) → List ℕ)
    (X : List (List ℚ)) (y : List ℚ) (s : LoopState) :
    s.n_clusters ≤ (fitStep mcs split X y s).n_clusters := by
  cases hpop : popMin s.heap with
  | none =>
    have hid : fitStep mcs split X y s = s := by simp [fitStep, hpop]
    rw [hid]
  | some p =>
    obtain ⟨e, heapRest⟩ := p
    simp only [fitStep, hpop]
    split
    · split
      · exact Nat.le_succ _
      · exact Nat.le_refl _
    · exact Nat.le_refl _

theorem fitLoop_n_clusters_ge (mcs : ℤ) (split : List (List ℚ) → List ℕ)
    (X : List (List ℚ)) (y : List ℚ) :
    ∀ (k : ℕ) (s : LoopState), s.n_clusters ≤ (fitLoop mcs split X y k s).n_clusters := by
  intro k
  induction k with
  | zero => intro s; exact Nat.le_refl _
  | succ k ih =>
    intro s
    simp only [fitLoop]
    split
    · exact Nat.le_refl _
    · exact le_trans (fitStep_n_clusters_ge mcs split X y s) (ih _)

theorem fitModel_ok {cfg : Config} {split : List (List ℚ) → List ℕ}
    {X : List (List ℚ)} {y : List ℚ} {r : FitResult}
    (h : fitModel cfg split X y = Except.ok r) :
    X.length ≠ 0 ∧ y.length = X.length ∧
      r = finalize X (loopResult cfg split X y) := by
  unfold fitModel at h
  split at h
  · cases h
  · rename_i hcond
    push_neg at hcond
    simp only [Except.ok.injEq] at h
    exact ⟨hcond.1, hcond.2, h.symm⟩

theorem finalPairs_fst_perm_range {n : ℕ} {s : LoopState} (h : invCore n s) :
    ((finalPairs s).map Prod.fst).Perm (List.range s.n_clusters) :=
  (finalPairs_fst_perm s).trans h.2.1

theorem finalPairs_length {n : ℕ} {s : LoopState} (h : invCore n s) :
    (finalPairs s).length = s.n_clusters := by
  have hl := (finalPairs_fst_perm_range h).length_eq
  rw [List.length_map, List.length_range] at hl
  exact hl

theorem finalize_partition {n : ℕ} {X : List (List ℚ)} {s : LoopState}
    (h : partitionInv n s) (hK : 1 ≤ s.n_clusters) :
    (finalize X s).labels_.length = n ∧
    (∀ i, i < n → (finalize X s).labels_.getD i 0 < (finalize X s).n_clusters_) ∧
    (∀ l, l < (finalize X s).n_clusters_ →
      ∃ i, i < n ∧ (finalize X s).labels_.getD i 0 = l) := by
  obtain ⟨⟨hlen, hperm, hbound⟩, hne⟩ := h
  have hcsperm : ((finalPairs s).map Prod.fst).Perm (List.range s.n_clusters) :=
    finalPairs_fst_perm_range ⟨hlen, hperm, hbound⟩
  have hnd : ((finalPairs s).map Prod.fst).Nodup :=
    hcsperm.nodup_iff.mpr (List.nodup_range s.n_clusters)
  have hcb : ∀ c ∈ (finalPairs s).map Prod.fst, c < s.n_clusters :=
    fun c hc => List.mem_range.mp (hcsperm.mem_iff.mp hc)
  have hcl : ((finalPairs s).map Prod.fst).length = s.n_clusters := by
    rw [hcsperm.length_eq, List.length_range]
  refine ⟨?_, ?_, ?_⟩
  · show (s.labels.map fun l =>
      (buildMapping s.n_clusters ((finalPairs s).map Prod.fst)).getD l 0).length = n
    rw [List.length_map]
    exact hlen
  · intro i hi
    show (s.labels.map fun l =>
      (buildMapping s.n_clusters ((finalPairs s).map Prod.fst)).getD l 0).getD i 0
      < s.n_clusters
    rw [getD_map_of_lt _ _ (by rw [hlen]; exact hi) 0 0]
    exact buildMapping_lt hK hcl _
  · intro l' hl'
    have hl'K : l' < s.n_clusters := hl'
    have hjlt : l' < ((finalPairs s).map Prod.fst).length := by rw [hcl]; exact hl'K
    have hcmem : ((finalPairs s).map Prod.fst).getD l' 0 ∈ (finalPairs s).map Prod.fst := by
      rw [List.getD_eq_getElem _ _ hjlt]
      exact List.getElem_mem hjlt
    obtain ⟨i, hin, hil⟩ := hne _ (hcb _ hcmem)
    refine ⟨i, hin, ?_⟩
    show (s.labels.map fun l =>
      (buildMapping s.n_clusters ((finalPairs s).map Prod.fst)).getD l 0).getD i 0 = l'
    rw [getD_map_of_lt _ _ (by rw [hlen]; exact hin) 0 0, hil]
    exact buildMapping_rank hnd hcb hjlt

theorem finalize_scores_sorted (X : List (List ℚ)) (s : LoopState) :
    List.Pairwise (fun a b : ℚ => b ≤ a) (finalize X s).scores_ := by
  show List.Pairwise _ ((finalPairs s).map Prod.snd)
  exact List.Pairwise.map _ (fun a b hab => hab) (finalPairs_sorted s)

theorem scores_getD_le_head {sc : List ℚ}
    (hs : List.Pairwise (fun a b : ℚ => b ≤ a) sc) :
    ∀ j, j < sc.length → sc.getD j 0 ≤ sc.getD 0 0 := by
  intro j hj
  cases j with
  | zero => exact le_refl _
  | succ j' =>
    have h0 : 0 < sc.length := by omega
    rw [List.getD_eq_getElem _ _ hj, List.getD_eq_getElem _ _ h0]
    exact (List.pairwise_iff_getElem.mp hs) 0 (j' + 1) h0 hj (by omega)

/-! ## argmin lemmas for predict -/

theorem argminIdx_lt_length {l : List ℚ} (h : l ≠ []) : argminIdx l < l.length := by
  induction l with
  | nil => exact absurd rfl h
  | cons a rest ih =>
    simp only [argminIdx]
    split
    · rename_i hcond
      by_cases hre : rest = []
      · subst hre
        simp at hcond
      · simpa using Nat.succ_lt_succ (ih hre)
    · simp

theorem argminIdx_le {l : List ℚ} :
    ∀ k, k < l.length → l.getD (argminIdx l) 0 ≤ l.getD k 0 := by
  induction l with
  | nil => intro k hk; simp at hk
  | cons a rest ih =>
    intro k hk
    by_cases hre : rest = []
    · subst hre
      have hk0 : k = 0 := by simpa using hk
      subst hk0
      simp [argminIdx]
    · have hlt : argminIdx rest < rest.length := argminIdx_lt_length hre
      have hgd : rest.getD (argminIdx rest) a = rest.getD (argminIdx rest) 0 := by
        rw [List.getD_eq_getElem _ _ hlt, List.getD_eq_getElem _ _ hlt]
      simp only [argminIdx]
      split
      · rename_i hcond
        rw [List.getD_cons_succ]
        cases k with
        | zero =>
          rw [List.getD_cons_zero]
          exact le_of_lt (hgd ▸ hcond)
        | succ k' =>
          rw [List.getD_cons_succ]
          exact ih k' (by simpa using hk)
      · rename_i hcond
        rw [List.getD_cons_zero]
        cases k with
        | zero => rw [List.getD_cons_zero]
        | succ k' =>
          rw [List.getD_cons_succ]
          have h1 : a ≤ rest.getD (argminIdx rest) 0 := hgd ▸ (not_lt.mp hcond)
          exact le_trans h1 (ih k' (by simpa using hk))

theorem argminIdx_first {l : List ℚ} :
    ∀ k, k < argminIdx l → l.getD k 0 > l.getD (argminIdx l) 0 := by
  induction l with
  | nil => intro k hk; simp [argminIdx] at hk
  | cons a rest ih =>
    intro k hk
    by_cases hre : rest = []
    · subst hre
      simp [argminIdx] at hk
    · have hlt : argminIdx rest < rest.length := argminIdx_lt_length hre
      have hgd : rest.getD (argminIdx rest) a = rest.getD (argminIdx rest) 0 := by
        rw [List.getD_eq_getElem _ _ hlt, List.getD_eq_getElem _ _ hlt]
      simp only [argminIdx] at hk ⊢
      by_cases hcond : rest.getD (argminIdx rest) a < a
      · rw [if_pos hcond] at hk ⊢
        rw [List.getD_cons_succ]
        cases k with
        | zero =>
          rw [List.getD_cons_zero]
          exact hgd ▸ hcond
        | succ k' =>
          rw [List.getD_cons_succ]
          exact ih k' (by omega)
      · rw [if_neg hcond] at hk
        exact absurd hk (Nat.not_lt_zero k)

/-! ## The score formula versus the specification formula -/

theorem complementIndices_nodup (n : ℕ) (idxs : List ℕ) :
    (complementIndices n idxs).Nodup :=
  (List.nodup_range n).filter _

theorem complementIndices_toFinset (n : ℕ) (idxs : List ℕ) :
    (complementIndices n idxs).toFinset = Finset.range n \ idxs.toFinset := by
  ext x
  simp [complementIndices, Finset.mem_sdiff, Finset.mem_range, List.mem_filter,
    List.mem_range]

theorem meanQ_valuesAt_eq_sum_div {y : List ℚ} {l : List ℕ} (hl : l.Nodup) :
    meanQ (valuesAt y l) = (∑ i in l.toFinset, y.getD i 0) / ((l.toFinset.card : ℚ)) := by
  unfold meanQ valuesAt
  rw [List.sum_toFinset _ hl, List.toFinset_card_of_nodup hl, List.length_map]

theorem sideScore_eq_spec {y : List ℚ} {idxs : List ℕ} (hnd : idxs.Nodup) :
    sideScore y idxs = specDiscriminationScore y idxs.toFinset := by
  unfold sideScore specDiscriminationScore
  rw [meanQ_valuesAt_eq_sum_div hnd,
    meanQ_valuesAt_eq_sum_div (complementIndices_nodup y.length idxs),
    complementIndices_toFinset y.length idxs]

/-! ## The degenerate run with no iterations -/

theorem foldr_max_replicate_zero (n : ℕ) :
    (List.replicate n (0 : ℕ)).foldr max 0 = 0 := by
  induction n with
  | zero => rfl
  | succ k ih => simp [List.replicate, ih]

theorem uniqueSorted_replicate_zero {n : ℕ} (hn : n ≠ 0) :
    uniqueSorted (List.replicate n 0) = [0] := by
  unfold uniqueSorted
  rw [foldr_max_replicate_zero]
  have h0 : (0 : ℕ) ∈ List.replicate n 0 := List.mem_replicate.mpr ⟨hn, rfl⟩
  simp [List.range_succ, h0, hn]

theorem finalize_initState {X : List (List ℚ)} (hX : X.length ≠ 0) :
    (finalize X (initState X.length)).n_clusters_ = 1 ∧
    (finalize X (initState X.length)).scores_ = [0] ∧
    (finalize X (initState X.length)).labels_ = List.replicate X.length 0 ∧
    (finalize X (initState X.length)).centroids_.length = 1 := by
  have hpairs : finalPairs (initState X.length) = [(0, 0)] := rfl
  have hmap : buildMapping 1 [0] = [0] := rfl
  have hlabs : (finalize X (initState X.length)).labels_ = List.replicate X.length 0 := by
    show ((initState X.length).labels.map fun l =>
      (buildMapping (initState X.length).n_clusters
        ((finalPairs (initState X.length)).map Prod.fst)).getD l 0)
      = List.replicate X.length 0
    rw [show (initState X.length).labels = List.replicate X.length 0 from rfl,
      List.map_replicate]
    rfl
  refine ⟨rfl, ?_, hlabs, ?_⟩
  · show ((finalPairs (initState X.length)).map Prod.snd) = [0]
    rw [hpairs]
    rfl
  · show (calcCentroids X (finalize X (initState X.length)).labels_).length = 1
    rw [hlabs]
    unfold calcCentroids
    rw [uniqueSorted_replicate_zero hX]
    rfl

/-! ## Claim theorems -/

/-- C1: during `fit`, for every popped candidate cluster whose two split
sides both meet the minimum size, the split is accepted (the cluster count
is incremented, the split materialized) if and only if
`max(score0, score1) >= parent.score`, with non-strict comparison: an exact
tie accepts the split. -/
theorem fit_split_acceptance (mcs : ℤ) (split : List (List ℚ) → List ℕ)
    (X : List (List ℚ)) (y : List ℚ) (s : LoopState) (e : Entry)
    (heapRest : List Entry) (hpop : popMin s.heap = some (e, heapRest))
    (h0 : mcs ≤ ((splitSides split X s.labels e.label).1.length : ℤ))
    (h1 : mcs ≤ ((splitSides split X s.labels e.label).2.length : ℤ)) :
    (fitStep mcs split X y s).n_clusters = s.n_clusters + 1 ↔
      e.score ≤ max (sideScore y (splitSides split X s.labels e.label).1)
        (sideScore y (splitSides split X s.labels e.label).2) := by
  simp only [fitStep, hpop]
  rw [if_pos ⟨h0, h1⟩]
  split
  · rename_i hsc
    exact iff_of_true rfl hsc
  · rename_i hsc
    refine iff_of_false ?_ hsc
    show ¬s.n_clusters = s.n_clusters + 1
    omega

/-- Witness for C1, exhibiting the exact-tie case: two points with equal
outcomes; both side scores equal the parent score `0`, and the split is
accepted (`n_clusters` goes from 1 to 2). -/
theorem fit_split_acceptance_witness :
    ((fitStep 1 splitAlt [[(0 : ℚ)], [(1 : ℚ)]] [(1 : ℚ), (1 : ℚ)]
        (initState 2)).n_clusters = (initState 2).n_clusters + 1 ↔
      (Entry.mk none 0 0).score ≤
        max (sideScore [(1 : ℚ), (1 : ℚ)]
              (splitSides splitAlt [[(0 : ℚ)], [(1 : ℚ)]] (initState 2).labels
                (Entry.mk none 0 0).label).1)
            (sideScore [(1 : ℚ), (1 : ℚ)]
              (splitSides splitAlt [[(0 : ℚ)], [(1 : ℚ)]] (initState 2).labels
                (Entry.mk none 0 0).label).2)) ∧
    max (sideScore [(1 : ℚ), (1 : ℚ)]
          (splitSides splitAlt [[(0 : ℚ)], [(1 : ℚ)]] (initState 2).labels
            (Entry.mk none 0 0).label).1)
        (sideScore [(1 : ℚ), (1 : ℚ)]
          (splitSides splitAlt [[(0 : ℚ)], [(1 : ℚ)]] (initState 2).labels
            (Entry.mk none 0 0).label).2) = (Entry.mk none 0 0).score ∧
    (fitStep 1 splitAlt [[(0 : ℚ)], [(1 : ℚ)]] [(1 : ℚ), (1 : ℚ)]
        (initState 2)).n_clusters = 2 :=
  ⟨fit_split_acceptance 1 splitAlt [[(0 : ℚ)], [(1 : ℚ)]] [(1 : ℚ), (1 : ℚ)]
      (initState 2) (Entry.mk none 0 0) [] rfl (by decide) (by decide),
   by with_unfolding_all decide,
   by with_unfolding_all decide⟩

/-- C2: a popped cluster's split is materialized only when both sides have
at least `min_cluster_size` elements; when either side has at most
`min_cluster_size - 1` elements, the popped cluster is finalized at its
current label and score and the label assignment is unchanged. -/
theorem fit_split_min_size (mcs : ℤ) (split : List (List ℚ) → List ℕ)
    (X : List (List ℚ)) (y : List ℚ) (s : LoopState) (e : Entry)
    (heapRest : List Entry) (hpop : popMin s.heap = some (e, heapRest)) :
    ((((splitSides split X s.labels e.label).1.length : ℤ) ≤ mcs - 1 ∨
        ((splitSides split X s.labels e.label).2.length : ℤ) ≤ mcs - 1) →
      fitStep mcs split X y s =
        { s with heap := heapRest,
                 finished := s.finished ++ [(e.label, e.score)] }) ∧
    ((fitStep mcs split X y s).labels ≠ s.labels →
      mcs ≤ ((splitSides split X s.labels e.label).1.length : ℤ) ∧
        mcs ≤ ((splitSides split X s.labels e.label).2.length : ℤ)) ∧
    ((fitStep mcs split X y s).n_clusters ≠ s.n_clusters →
      mcs ≤ ((splitSides split X s.labels e.label).1.length : ℤ) ∧
        mcs ≤ ((splitSides split X s.labels e.label).2.length : ℤ)) := by
  simp only [fitStep, hpop]
  split
  · rename_i hsz
    refine ⟨?_, fun _ => hsz, fun _ => hsz⟩
    intro hlt
    exfalso
    obtain ⟨hA, hB⟩ := hsz
    rcases hlt with h | h <;> omega
  · refine ⟨fun _ => rfl, ?_, ?_⟩
    · intro hne
      exact absurd rfl hne
    · intro hne
      exact absurd rfl hne

/-- Witness for C2, exhibiting the boundary case: with
`min_cluster_size = 2`, both sides of the first split have exactly
`min_cluster_size - 1 = 1` points, so the split is rejected and the popped
cluster is finalized at its current label `0` and score `0` with the label
assignment untouched. -/
theorem fit_split_min_size_witness :
    fitStep 2 splitAlt [[(0 : ℚ)], [(1 : ℚ)]] [(1 : ℚ), (1 : ℚ)] (initState 2) =
      { initState 2 with
        heap := ([] : List Entry),
        finished := (initState 2).finished ++
          [((Entry.mk none 0 0).label, (Entry.mk none 0 0).score)] } :=
  (fit_split_min_size 2 splitAlt [[(0 : ℚ)], [(1 : ℚ)]] [(1 : ℚ), (1 : ℚ)]
      (initState 2) (Entry.mk none 0 0) [] rfl).1 (by decide)

/-- C3: the discrimination score computed for a candidate split side during
`fit` equals the specification formula: the mean of `y` over all dataset
indices not in the side minus the mean of `y` over the side, the complement
taken over the entire dataset (`Finset.range y.length`), not over the
parent cluster. -/
theorem fit_score_matches_spec (split : List (List ℚ) → List ℕ)
    (X : List (List ℚ)) (ls : List ℕ) (l : ℕ) (y : List ℚ) :
    sideScore y (splitSides split X ls l).1 =
      specDiscriminationScore y (splitSides split X ls l).1.toFinset ∧
    sideScore y (splitSides split X ls l).2 =
      specDiscriminationScore y (splitSides split X ls l).2.toFinset :=
  ⟨sideScore_eq_spec (splitSides_fst_nodup split X ls l),
   sideScore_eq_spec (splitSides_snd_nodup split X ls l)⟩

/-- C4: after every successful `fit`, `scores_` is sorted in descending
order with `scores_[0]` maximal, `scores_` has one entry per cluster, the
rank-`ρ` cluster (in descending score order) is remapped to final label
`ρ`, and the remapping is applied to the entire label assignment. -/
theorem fit_ranking (cfg : Config) (split : List (List ℚ) → List ℕ)
    (X : List (List ℚ)) (y : List ℚ) (r : FitResult)
    (hr : fitModel cfg split X y = Except.ok r) :
    List.Pairwise (fun a b : ℚ => b ≤ a) r.scores_ ∧
    (∀ j, j < r.scores_.length → r.scores_.getD j 0 ≤ r.scores_.getD 0 0) ∧
    r.scores_.length = r.n_clusters_ ∧
    (∀ ρ, ρ < r.n_clusters_ →
      (buildMapping (loopResult cfg split X y).n_clusters
          ((finalPairs (loopResult cfg split X y)).map Prod.fst)).getD
        (((finalPairs (loopResult cfg split X y)).map Prod.fst).getD ρ 0) 0 = ρ) ∧
    r.labels_ = (loopResult cfg split X y).labels.map
      (fun l => (buildMapping (loopResult cfg split X y).n_clusters
        ((finalPairs (loopResult cfg split X y)).map Prod.fst)).getD l 0) := by
  obtain ⟨hN, hy, hre⟩ := fitModel_ok hr
  subst hre
  have hinv : invCore X.length (loopResult cfg split X y) := by
    unfold loopResult
    exact invCore_fitLoop cfg.n_iter _ (invCore_init X.length)
  have hsort := finalize_scores_sorted X (loopResult cfg split X y)
  refine ⟨hsort, scores_getD_le_head hsort, ?_, ?_, rfl⟩
  · show ((finalPairs (loopResult cfg split X y)).map Prod.snd).length
      = (loopResult cfg split X y).n_clusters
    rw [List.length_map]
    exact finalPairs_length hinv
  · intro ρ hρ
    have hcsperm := finalPairs_fst_perm_range hinv
    have hnd := hcsperm.nodup_iff.mpr (List.nodup_range _)
    have hcb : ∀ c ∈ (finalPairs (loopResult cfg split X y)).map Prod.fst,
        c < (loopResult cfg split X y).n_clusters :=
      fun c hc => List.mem_range.mp (hcsperm.mem_iff.mp hc)
    exact buildMapping_rank hnd hcb
      (by rw [hcsperm.length_eq, List.length_range]; exact hρ)

/-- Witness for C4 at a concrete two-point fit. -/
theorem fit_ranking_witness :
    List.Pairwise (fun a b : ℚ => b ≤ a)
      (finalize [[(0 : ℚ)], [(1 : ℚ)]]
        (loopResult ⟨1, 1⟩ splitAlt [[(0 : ℚ)], [(1 : ℚ)]] [(0 : ℚ), 1])).scores_ ∧
    (finalize [[(0 : ℚ)], [(1 : ℚ)]]
      (loopResult ⟨1, 1⟩ splitAlt [[(0 : ℚ)], [(1 : ℚ)]] [(0 : ℚ), 1])).scores_.length =
      (finalize [[(0 : ℚ)], [(1 : ℚ)]]
        (loopResult ⟨1, 1⟩ splitAlt [[(0 : ℚ)], [(1 : ℚ)]] [(0 : ℚ), 1])).n_clusters_ :=
  ⟨(fit_ranking ⟨1, 1⟩ splitAlt [[(0 : ℚ)], [(1 : ℚ)]] [(0 : ℚ), 1]
      (finalize [[(0 : ℚ)], [(1 : ℚ)]]
        (loopResult ⟨1, 1⟩ splitAlt [[(0 : ℚ)], [(1 : ℚ)]] [(0 : ℚ), 1]))
      (by with_unfolding_all rfl)).1,
   (fit_ranking ⟨1, 1⟩ splitAlt [[(0 : ℚ)], [(1 : ℚ)]] [(0 : ℚ), 1]
      (finalize [[(0 : ℚ)], [(1 : ℚ)]]
        (loopResult ⟨1, 1⟩ splitAlt [[(0 : ℚ)], [(1 : ℚ)]] [(0 : ℚ), 1]))
      (by with_unfolding_all rfl)).2.2.1⟩

/-- C5: with a positive `min_cluster_size` and a nonempty dataset, the
active labels partition all `N` indices at every intermediate step of the
`fit` loop (every index carries exactly one label, in range, and every
label in range is carried by some index), and after a successful `fit` the
final `labels_` partitions all `N` points across exactly `n_clusters_`
nonempty groups. -/
theorem fit_partition (n_iter : ℕ) (mcs : ℤ) (split : List (List ℚ) → List ℕ)
    (X : List (List ℚ)) (y : List ℚ) (hmcs : 1 ≤ mcs) (hN : 1 ≤ X.length) :
    (∀ k, partitionInv X.length (fitLoop mcs split X y k (initState X.length))) ∧
    (∀ r, fitModel ⟨n_iter, mcs⟩ split X y = Except.ok r →
      r.labels_.length = X.length ∧
      (∀ i, i < X.length → r.labels_.getD i 0 < r.n_clusters_) ∧
      (∀ l, l < r.n_clusters_ → ∃ i, i < X.length ∧ r.labels_.getD i 0 = l)) := by
  have hpart : ∀ k, partitionInv X.length (fitLoop mcs split X y k (initState X.length)) :=
    fun k => partitionInv_fitLoop hmcs rfl k _ (partitionInv_init hN)
  refine ⟨hpart, ?_⟩
  intro r hr
  obtain ⟨hN0, hy, hre⟩ := fitModel_ok hr
  subst hre
  have hK : 1 ≤ (loopResult ⟨n_iter, mcs⟩ split X y).n_clusters :=
    fitLoop_n_clusters_ge mcs split X y n_iter (initState X.length)
  exact finalize_partition (hpart n_iter) hK

/-- Witness for C5 at a concrete two-point fit. -/
theorem fit_partition_witness :
    partitionInv 2 (fitLoop 1 splitAlt [[(0 : ℚ)], [(1 : ℚ)]] [(0 : ℚ), 1] 1 (initState 2)) ∧
    (finalize [[(0 : ℚ)], [(1 : ℚ)]]
      (loopResult ⟨1, 1⟩ splitAlt [[(0 : ℚ)], [(1 : ℚ)]] [(0 : ℚ), 1])).labels_.length = 2 :=
  ⟨(fit_partition 1 1 splitAlt [[(0 : ℚ)], [(1 : ℚ)]] [(0 : ℚ), 1]
      (by decide) (by decide)).1 1,
   ((fit_partition 1 1 splitAlt [[(0 : ℚ)], [(1 : ℚ)]] [(0 : ℚ), 1]
      (by decide) (by decide)).2
      (finalize [[(0 : ℚ)], [(1 : ℚ)]]
        (loopResult ⟨1, 1⟩ splitAlt [[(0 : ℚ)], [(1 : ℚ)]] [(0 : ℚ), 1]))
      (by with_unfolding_all rfl)).1⟩

/-- C6: every successful `fit` yields `n_clusters_ ≤ n_iter + 1`;
with `n_iter = 0` it yields exactly one cluster, score list `[0]`, and a
single-column centroid table. -/
theorem fit_iteration_bound :
    (∀ (cfg : Config) (split : List (List ℚ) → List ℕ) (X : List (List ℚ))
        (y : List ℚ) (r : FitResult),
      fitModel cfg split X y = Except.ok r → r.n_clusters_ ≤ cfg.n_iter + 1) ∧
    (∀ (mcs : ℤ) (split : List (List ℚ) → List ℕ) (X : List (List ℚ)) (y : List ℚ),
      X.length ≠ 0 → y.length = X.length →
        fitModel ⟨0, mcs⟩ split X y = Except.ok (finalize X (initState X.length)) ∧
        (finalize X (initState X.length)).n_clusters_ = 1 ∧
        (finalize X (initState X.length)).scores_ = [0] ∧
        (finalize X (initState X.length)).centroids_.length = 1) := by
  constructor
  · intro cfg split X y r hr
    obtain ⟨hN, hy, hre⟩ := fitModel_ok hr
    subst hre
    show (loopResult cfg split X y).n_clusters ≤ cfg.n_iter + 1
    have h := fitLoop_n_clusters_le cfg.min_cluster_size split X y cfg.n_iter
      (initState X.length)
    have h1 : (initState X.length).n_clusters = 1 := rfl
    show (fitLoop cfg.min_cluster_size split X y cfg.n_iter (initState X.length)).n_clusters
      ≤ cfg.n_iter + 1
    omega
  · intro mcs split X y hN hy
    obtain ⟨h1, h2, h3, h4⟩ := finalize_initState (X := X) hN
    refine ⟨?_, h1, h2, h4⟩
    unfold fitModel
    rw [if_neg (by simp [hN, hy])]
    rfl

/-- Witness for C6: the bound at a concrete one-iteration fit, and the
degenerate `n_iter = 0` fit on a single point. -/
theorem fit_iteration_bound_witness :
    (finalize [[(0 : ℚ)], [(1 : ℚ)]]
      (loopResult ⟨1, 1⟩ splitAlt [[(0 : ℚ)], [(1 : ℚ)]] [(0 : ℚ), 1])).n_clusters_ ≤ 2 ∧
    (fitModel ⟨0, 1⟩ splitAlt [[(0 : ℚ)]] [(0 : ℚ)] =
        Except.ok (finalize [[(0 : ℚ)]] (initState 1)) ∧
      (finalize [[(0 : ℚ)]] (initState 1)).n_clusters_ = 1 ∧
      (finalize [[(0 : ℚ)]] (initState 1)).scores_ = [0] ∧
      (finalize [[(0 : ℚ)]] (initState 1)).centroids_.length = 1) :=
  ⟨fit_iteration_bound.1 ⟨1, 1⟩ splitAlt [[(0 : ℚ)], [(1 : ℚ)]] [(0 : ℚ), 1]
      (finalize [[(0 : ℚ)], [(1 : ℚ)]]
        (loopResult ⟨1, 1⟩ splitAlt [[(0 : ℚ)], [(1 : ℚ)]] [(0 : ℚ), 1]))
      (by with_unfolding_all rfl),
   fit_iteration_bound.2 1 splitAlt [[(0 : ℚ)]] [(0 : ℚ)] (by decide) (by decide)⟩

/-- C7 (amended): `predict` on a fitted engine, applied to a nonempty
input, returns one label per input row, each label the index of the
centroid column at minimal squared Euclidean distance with ties broken by
the lowest index, every label in `[0, n_clusters_)`; the method is a pure
function of the fitted state (it returns only the labels and touches
nothing else).  An input with zero rows is instead rejected by `predict`'s
input validation with `ValueError`. -/
theorem predict_nearest_centroid (cent : List (List ℚ)) (Xp : List (List ℚ))
    (hK : 1 ≤ cent.length) :
    (predictLabels cent Xp).length = Xp.length ∧
    (∀ (a : ℕ) (b : ℤ) (r : FitResult), 1 ≤ Xp.length →
      predictMethod ⟨a, b, some r⟩ Xp = Except.ok (predictLabels r.centroids_ Xp)) ∧
    (∀ (a : ℕ) (b : ℤ) (f : Option FitResult), Xp.length = 0 →
      predictMethod ⟨a, b, f⟩ Xp = Except.error PredictError.valueError) ∧
    (∀ i, i < Xp.length →
      (predictLabels cent Xp).getD i 0 < cent.length ∧
      (∀ k, k < cent.length →
        sqDist (Xp.getD i []) (cent.getD ((predictLabels cent Xp).getD i 0) []) ≤
          sqDist (Xp.getD i []) (cent.getD k [])) ∧
      (∀ k, k < (predictLabels cent Xp).getD i 0 →
        sqDist (Xp.getD i []) (cent.getD ((predictLabels cent Xp).getD i 0) []) <
          sqDist (Xp.getD i []) (cent.getD k []))) := by
  refine ⟨by unfold predictLabels; rw [List.length_map], ?_, ?_, ?_⟩
  · intro a b r hM
    unfold predictMethod
    rw [if_neg (by omega)]
  · intro a b f h0
    unfold predictMethod
    rw [if_pos h0]
  intro i hi
  have hgl : (predictLabels cent Xp).getD i 0 =
      argminIdx (cent.map (fun c => sqDist (Xp.getD i []) c)) := by
    unfold predictLabels
    rw [getD_map_of_lt _ _ hi 0 []]
  have hne : cent.map (fun c => sqDist (Xp.getD i []) c) ≠ [] := by
    intro hc
    have hc2 := congrArg List.length hc
    simp only [List.length_map, List.length_nil] at hc2
    omega
  have hlt := argminIdx_lt_length hne
  rw [List.length_map] at hlt
  have hdl : ∀ k, k < cent.length →
      (cent.map (fun c => sqDist (Xp.getD i []) c)).getD k 0 =
        sqDist (Xp.getD i []) (cent.getD k []) := by
    intro k hk
    rw [getD_map_of_lt _ _ hk 0 []]
  refine ⟨?_, ?_, ?_⟩
  · rw [hgl]
    exact hlt
  · intro k hk
    rw [hgl, ← hdl _ hlt, ← hdl _ hk]
    exact argminIdx_le _ (by rw [List.length_map]; exact hk)
  · intro k hk
    rw [hgl] at hk ⊢
    rw [← hdl _ hlt, ← hdl _ (lt_trans hk hlt)]
    exact argminIdx_first _ hk

/-- Witness for C7 with a one-column centroid table and a one-row input,
exercising the nonempty-input success path. -/
theorem predict_nearest_centroid_witness :
    (predictLabels [[(0 : ℚ)]] [[(3 : ℚ)]]).length = 1 ∧
    predictMethod ⟨1, 1, some (FitResult.mk [0] [0] 1 [[(0 : ℚ)]])⟩ [[(3 : ℚ)]] =
      Except.ok (predictLabels (FitResult.mk [0] [0] 1 [[(0 : ℚ)]]).centroids_
        [[(3 : ℚ)]]) ∧
    (predictLabels [[(0 : ℚ)]] [[(3 : ℚ)]]).getD 0 0 < 1 :=
  ⟨(predict_nearest_centroid [[(0 : ℚ)]] [[(3 : ℚ)]] (by decide)).1,
   (predict_nearest_centroid [[(0 : ℚ)]] [[(3 : ℚ)]] (by decide)).2.1 1 1
     (FitResult.mk [0] [0] 1 [[(0 : ℚ)]]) (by decide),
   ((predict_nearest_centroid [[(0 : ℚ)]] [[(3 : ℚ)]] (by decide)).2.2.2 0 (by decide)).1⟩

/-- Counterexample for C7 as stated: on a fitted engine, `predict` applied
to the 0-row input does not return the (empty) length-0 label vector the
claim demands — `_validate_data` rejects the input with `ValueError`
before the centroids are consulted. -/
theorem predict_empty_counterexample :
    predictMethod ⟨1, 1, some (FitResult.mk [0] [0] 1 [[(0 : ℚ)]])⟩ [] =
      Except.error PredictError.valueError ∧
    predictMethod ⟨1, 1, some (FitResult.mk [0] [0] 1 [[(0 : ℚ)]])⟩ [] ≠
      Except.ok [] :=
  ⟨rfl, by decide⟩

/-- C8 (amended): calling `predict` on an engine that has never been
fitted fails for every input, but never with `NotFittedError`: an input
that passes `predict`'s input validation (at least one row) fails with
`AttributeError` — the method reads the absent `centroids_` attribute
without any fitted-state check — while a 0-row input fails earlier, with
`ValueError` from the validation itself. -/
theorem predict_unfitted (e : Engine) (Xp : List (List ℚ)) (h : e.fitted = none) :
    (1 ≤ Xp.length →
      predictMethod e Xp = Except.error PredictError.attributeError) ∧
    (Xp.length = 0 →
      predictMethod e Xp = Except.error PredictError.valueError) ∧
    predictMethod e Xp ≠ Except.error PredictError.notFittedError := by
  have h1 : 1 ≤ Xp.length →
      predictMethod e Xp = Except.error PredictError.attributeError := by
    intro hM
    unfold predictMethod
    rw [if_neg (by omega)]
    simp [h]
  have h0 : Xp.length = 0 →
      predictMethod e Xp = Except.error PredictError.valueError := by
    intro hM
    unfold predictMethod
    rw [if_pos hM]
  refine ⟨h1, h0, ?_⟩
  intro hc
  rcases Nat.eq_zero_or_pos Xp.length with hz | hp
  · rw [h0 hz] at hc
    injection hc with h2
    exact PredictError.noConfusion h2
  · rw [h1 hp] at hc
    injection hc with h2
    exact PredictError.noConfusion h2

/-- Counterexample for C8 as stated: on a freshly constructed engine,
`predict` does not fail with `NotFittedError`; it fails with
`AttributeError`. -/
theorem predict_unfitted_counterexample :
    predictMethod (mkEngine 1 1) [[(0 : ℚ)]] ≠ Except.error PredictError.notFittedError ∧
    predictMethod (mkEngine 1 1) [[(0 : ℚ)]] = Except.error PredictError.attributeError := by
  exact ⟨by decide, rfl⟩

/-- Witness for the amended C8, at a validation-passing one-row input. -/
theorem predict_unfitted_witness :
    predictMethod (mkEngine 2 3) [[(5 : ℚ)]] = Except.error PredictError.attributeError ∧
    predictMethod (mkEngine 2 3) [[(5 : ℚ)]] ≠ Except.error PredictError.notFittedError :=
  ⟨(predict_unfitted (mkEngine 2 3) [[(5 : ℚ)]] rfl).1 (by decide),
   (predict_unfitted (mkEngine 2 3) [[(5 : ℚ)]] rfl).2.2⟩

/-- C9 (amended): `fit` performs no validation of `min_cluster_size`
whatsoever — it never raises a `ConfigurationError`, for any configuration
including `min_cluster_size ≤ 0`; only the `X`/`y` shape validation can
fail. -/
theorem fit_no_configuration_validation (cfg : Config)
    (split : List (List ℚ) → List ℕ) (X : List (List ℚ)) (y : List ℚ) :
    fitModel cfg split X y ≠ Except.error FitError.configurationError := by
  unfold fitModel
  split
  · intro hc
    injection hc with h2
    exact FitError.noConfusion h2
  · intro hc
    exact Except.noConfusion hc

/-- Counterexample for C9 as stated: a fit with `min_cluster_size = 0`
(an illegal configuration per the specification) completes successfully and
raises no `ConfigurationError` at entry. -/
theorem fit_mcs_zero_counterexample :
    isOkB (fitModel ⟨1, 0⟩ splitAlt [[(0 : ℚ)], [(1 : ℚ)]] [(0 : ℚ), (1 : ℚ)]) = true ∧
    fitModel ⟨1, 0⟩ splitAlt [[(0 : ℚ)], [(1 : ℚ)]] [(0 : ℚ), (1 : ℚ)] ≠
      Except.error FitError.configurationError := by
  constructor
  · with_unfolding_all decide
  · with_unfolding_all decide

/-- C10: `fit` reads no previously fitted state — fitting an
already-fitted engine gives exactly the same outcome (same `labels_`,
`scores_`, `centroids_`, `n_clusters_`, same error behavior) as fitting a
freshly constructed engine with the same configuration.  The split
strategy is a function, hence deterministic. -/
theorem fit_independent_of_prior_state (split : List (List ℚ) → List ℕ)
    (e : Engine) (X : List (List ℚ)) (y : List ℚ) :
    fitMethod split e X y = fitMethod split (mkEngine e.n_iter e.min_cluster_size) X y := by
  unfold fitMethod mkEngine
  dsimp only
